import Mathlib

/-!
Verification of the IEC 62304 Auditor CLI (`IEC62304_autogen.py`).

The development shallowly embeds the repository's own pure logic:
file discovery and deduplication (`discover_paths`), per-format text
extraction with character budgets (`read_pdf`, `read_docx`, `read_xlsx`),
whitespace normalization (`clean_text`), bounded context construction
(`build_context`), the interactive queue loop of `main`, and the
startup credential gate.  External effects (the filesystem, the parsing
libraries, the environment) are modelled as explicit inputs; machine
integers are `Nat`/`Int`.
-/

namespace IEC62304

/-! ## Python string primitives -/

/-- The whitespace characters stripped by Python's `str.strip()`
(the Unicode whitespace set used by `Py_UNICODE_ISSPACE`). -/
def pyIsSpace (c : Char) : Bool :=
  c = ' ' || c = '\t' || c = '\n' || c = '\r' || c.toNat = 0x0b || c.toNat = 0x0c ||
  c.toNat = 0x1c || c.toNat = 0x1d || c.toNat = 0x1e || c.toNat = 0x1f ||
  c.toNat = 0x85 || c.toNat = 0xa0 || c.toNat = 0x1680 ||
  (0x2000 ≤ c.toNat && c.toNat ≤ 0x200a) ||
  c.toNat = 0x2028 || c.toNat = 0x2029 || c.toNat = 0x202f ||
  c.toNat = 0x205f || c.toNat = 0x3000

/-- Drop the longest suffix of characters satisfying `p`
(the right half of Python's `str.strip`). -/
def dropTrailing (p : Char → Bool) : List Char → List Char
  | [] => []
  | c :: cs =>
    match dropTrailing p cs with
    | [] => if p c then [] else [c]
    | r => c :: r

/-- Python `str.strip()`: remove leading and trailing whitespace. -/
def pyStrip (l : List Char) : List Char :=
  dropTrailing pyIsSpace (l.dropWhile pyIsSpace)

/-- Python `str.strip()` on `String`. -/
def pyStripStr (s : String) : String := ⟨pyStrip s.data⟩

/-- A space or a tab: the character class `[ \t]` of the first
regular expression in `clean_text`. -/
def isSpaceTab (c : Char) : Bool := c = ' ' || c = '\t'

/-- `re.sub(r"[ \t]+", " ", text)`: each maximal run of spaces and tabs
becomes a single space.  The boolean argument records whether the scan
is currently inside such a run (the run's single `' '` has already been
emitted). -/
def collapseST : List Char → Bool → List Char
  | [], _ => []
  | c :: cs, inRun =>
    if isSpaceTab c then
      if inRun then collapseST cs true else ' ' :: collapseST cs true
    else c :: collapseST cs false

/-- `re.sub(r"[ \t]+", " ", text)` as a function on character lists. -/
def collapseSpaceTab (l : List Char) : List Char := collapseST l false

/-- `re.sub(r"\r?\n+", "\n", text)`: scanning left to right, each match
of an optional `'\r'` followed by a maximal nonempty run of `'\n'` is
replaced by a single `'\n'`.  The boolean argument records whether the
scan sits immediately after such a match, in which case further bare
`'\n'` characters belong to the already-replaced run and are dropped. -/
def collapseNL : List Char → Bool → List Char
  | [], _ => []
  | '\r' :: '\n' :: cs, _ => '\n' :: collapseNL cs true
  | '\n' :: cs, true => collapseNL cs true
  | '\n' :: cs, false => '\n' :: collapseNL cs true
  | c :: cs, _ => c :: collapseNL cs false

/-- `re.sub(r"\r?\n+", "\n", text)` as a function on character lists. -/
def collapseNewlines (l : List Char) : List Char := collapseNL l false

/-- `clean_text`:
`re.sub(r"\r?\n+", "\n", re.sub(r"[ \t]+", " ", text)).strip()`. -/
def clean_text (s : String) : String :=
  ⟨pyStrip (collapseNewlines (collapseSpaceTab s.data))⟩

/-! ## Startup credential gate (`__main__` block) -/

/-- Outcome of the `__main__` guard: either a fatal printed error with an
exit status, or proceeding into `asyncio.run(main())`. -/
inductive StartupResult where
  | fatal (msg : String) (code : Nat)
  | proceed
deriving DecidableEq

/-- The `__main__` block after `load_dotenv()`: if `"ANTHROPIC_API_KEY"`
is not a key of the environment, print the error and `exit(1)`;
otherwise start the interactive loop. -/
def startupCheck (env : List (String × String)) : StartupResult :=
  if (env.lookup "ANTHROPIC_API_KEY").isSome then .proceed
  else .fatal "ERROR: Set ANTHROPIC_API_KEY" 1

/-! ## Evidence items and context building -/

/-- `EvidenceItem` dataclass: path, format tag, display title, excerpt. -/
structure EvidenceItem where
  path : String
  kind : String
  title : String
  excerpt : String

/-- The untruncated chunk of `build_context` for one item:
`f"\n## {it.title} ({it.kind})\n{it.excerpt}\n"`. -/
def contextChunkStr (it : EvidenceItem) : String :=
  "\n## " ++ it.title ++ " (" ++ it.kind ++ ")\n" ++ it.excerpt ++ "\n"

/-- One chunk of `build_context`, truncated to the remaining budget when
longer (`chunk[:remaining]`). -/
def contextChunk (it : EvidenceItem) (remaining : Int) : String :=
  if ((contextChunkStr it).length : Int) > remaining
  then ⟨(contextChunkStr it).data.take remaining.toNat⟩ else contextChunkStr it

/-- The body of `build_context`'s loop.  `remaining` is the signed
character budget left (`max_chars - len("Evidence:")` initially); the
loop breaks when it is exhausted, truncates an overlong chunk to the
remaining budget, and records every processed title. -/
def buildContextLoop : List EvidenceItem → Int → List String × List String
  | [], _ => ([], [])
  | it :: rest, remaining =>
    if remaining ≤ 0 then ([], [])
    else
      let chunk := contextChunk it remaining
      let res := buildContextLoop rest (remaining - chunk.length)
      (chunk :: res.1, it.title :: res.2)

/-- `"".join(lines)`. -/
def joinAll (lines : List String) : String :=
  lines.foldl (fun acc s => acc ++ s) ""

/-- `build_context(items, max_chars)`: header `"Evidence:"`, then one
chunk per item while the budget lasts; returns the joined context and
the list of processed titles. -/
def build_context (items : List EvidenceItem) (max_chars : Int) : String × List String :=
  let header := "Evidence:"
  let res := buildContextLoop items (max_chars - header.length)
  (joinAll (header :: res.1), res.2)

/-! ## File discovery (`discover_paths`) -/

/-- The filesystem boundary of `discover_paths`: `glob.glob`, then
`Path(p).expanduser().resolve()`, then `path.exists()` / `path.is_file()`.
Paths are modelled as strings. -/
structure FileSys where
  glob : String → List String
  resolve : String → String
  pathExists : String → Bool
  pathIsFile : String → Bool

/-- The candidate list built by `discover_paths`'s double loop, before
deduplication: each pattern is globbed, each hit resolved, and only
existing regular files are kept. -/
def candidatePaths (fs : FileSys) (patterns : List String) : List String :=
  ((patterns.map fun pat => (fs.glob pat).map fs.resolve).flatten).filter
    fun p => fs.pathExists p && fs.pathIsFile p

/-- `list(dict.fromkeys(paths))`: fold keys into a dict in order,
inserting each key only when absent, so the first occurrence survives. -/
def fromkeysList (l : List String) : List String :=
  l.foldl (fun acc p => if p ∈ acc then acc else acc ++ [p]) []

/-- `discover_paths(patterns)`: expand patterns to unique file paths. -/
def discover_paths (fs : FileSys) (patterns : List String) : List String :=
  fromkeysList (candidatePaths fs patterns)

/-! ## Per-format extraction (`read_pdf`, `read_docx`, `read_xlsx`)

Each reader's interaction with its optional parsing library is modelled
as an explicit source value: the library may be missing, the library
call may raise (the message of the caught exception is carried), or it
returns parsed content.  The content itself (page texts, paragraph
texts, worksheet cells as display strings) is the data the library
hands back to the code under audit. -/

/-- Input to `read_pdf`: `pypdf` absent, `PdfReader`/`extract_text`
raising, or the per-page `extract_text() or ""` results. -/
inductive PdfSource where
  | noLib
  | failure (msg : String)
  | pages (ps : List String)

/-- Input to `read_docx`: `python-docx` absent, `docx.Document` raising,
or the paragraph texts. -/
inductive DocxSource where
  | noLib
  | failure (msg : String)
  | paras (ps : List String)

/-- One worksheet: its title and the rows of the sheet, each cell
already rendered as `str(cell.value) if cell.value else ""`. -/
structure Worksheet where
  title : String
  rows : List (List String)

/-- Input to `read_xlsx`: `openpyxl` absent, `load_workbook` raising,
or the worksheets. -/
inductive XlsxSource where
  | noLib
  | failure (msg : String)
  | sheets (wss : List Worksheet)

/-- The page loop of `read_pdf`: enumerate the first ten pages, strip
each extracted text, keep the nonempty ones as `"[p{i+1}] {txt}"`, and
break once the accumulated length exceeds `max_chars` (the overflowing
entry itself is appended before the break). -/
def readPdfTexts (maxc : Nat) : List String → Nat → Nat → List String
  | [], _, _ => []
  | pg :: rest, i, accLen =>
    let txt := pyStripStr pg
    if txt.isEmpty then readPdfTexts maxc rest (i + 1) accLen
    else
      let entry := "[p" ++ toString (i + 1) ++ "] " ++ txt
      if accLen + entry.length > maxc then [entry]
      else entry :: readPdfTexts maxc rest (i + 1) (accLen + entry.length)

/-- `read_pdf(path, max_chars)`. -/
def read_pdf (src : PdfSource) (max_chars : Nat) : String :=
  match src with
  | .noLib => "(Install pypdf)"
  | .failure e => "(PDF error: " ++ e ++ ")"
  | .pages ps =>
    ⟨(clean_text (String.intercalate "\n" (readPdfTexts max_chars (ps.take 10) 0 0))).data.take max_chars⟩

/-- `read_docx(path, max_chars)`. -/
def read_docx (src : DocxSource) (max_chars : Nat) : String :=
  match src with
  | .noLib => "(Install python-docx)"
  | .failure e => "(DOCX error: " ++ e ++ ")"
  | .paras ps =>
    let paras := ((ps.map pyStripStr).filter fun t => !t.isEmpty)
    ⟨(clean_text (String.intercalate "\n" paras)).data.take max_chars⟩

/-- The row loop of `read_xlsx` for one worksheet: join each row's cell
strings with `", "`, and break once the accumulated length exceeds
`max_chars // 2` (the overflowing row stays appended). -/
def xlsxRows (half : Nat) : List (List String) → Nat → List String
  | [], _ => []
  | row :: rest, accLen =>
    let rowStr := String.intercalate ", " row
    if accLen + rowStr.length > half then [rowStr]
    else rowStr :: xlsxRows half rest (accLen + rowStr.length)

/-- The worksheet loop of `read_xlsx`: for each of the first three
sheets take the first twenty rows, and if any rows were produced append
`"[{title}] " + " | ".join(rows)`, breaking once the accumulated length
exceeds `max_chars` (the overflowing part stays appended). -/
def xlsxParts (maxc : Nat) : List Worksheet → Nat → List String
  | [], _ => []
  | ws :: rest, accLen =>
    let rows := xlsxRows (maxc / 2) (ws.rows.take 20) 0
    if rows.isEmpty then xlsxParts maxc rest accLen
    else
      let part := "[" ++ ws.title ++ "] " ++ String.intercalate " | " rows
      if accLen + part.length > maxc then [part]
      else part :: xlsxParts maxc rest (accLen + part.length)

/-- `read_xlsx(path, max_chars)`. -/
def read_xlsx (src : XlsxSource) (max_chars : Nat) : String :=
  match src with
  | .noLib => "(Install openpyxl)"
  | .failure e => "(XLSX error: " ++ e ++ ")"
  | .sheets wss =>
    ⟨(clean_text (String.intercalate "\n" (xlsxParts max_chars (wss.take 3) 0))).data.take max_chars⟩

/-! ## The interactive queue loop of `main` -/

/-- `Path.suffix.lower()` of the final path component: the part of the
name from its last dot on, empty when the name has no dot, starts with
its only dot, or ends in its last dot; then ASCII-lowered. -/
def pySuffixLower (p : String) : String :=
  let name := (p.data.reverse.takeWhile fun c => c ≠ '/').reverse
  let rev := name.reverse
  let afterDot := rev.takeWhile fun c => c ≠ '.'
  if afterDot.length = rev.length then ""
  else if afterDot.length = 0 then ""
  else if afterDot.length = rev.length - 1 then ""
  else ⟨('.' :: afterDot.reverse).map Char.toLower⟩

/-- The extension filter of the `add` command:
`p.suffix.lower() in {".pdf", ".docx", ".xlsx"}`. -/
def supportedExt (p : String) : Bool :=
  pySuffixLower p = ".pdf" || pySuffixLower p = ".docx" || pySuffixLower p = ".xlsx"

/-- `found` in the `add` handler: discovered paths whose lowercased
suffix is supported. -/
def addFound (fs : FileSys) (patterns : List String) : List String :=
  (discover_paths fs patterns).filter supportedExt

/-- One interactive command, after `raw.split()` and lowercasing of the
command word. -/
inductive Cmd where
  | add (patterns : List String)
  | listq
  | clearq
  | runq
  | unknown

/-- The effect of one command on the queue.  `add` appends the
discovered supported files that are not already queued (and only when
patterns were given and something was found, although appending nothing
is the same as not appending); `clear` empties the queue; `list` and
`run` leave it unchanged. -/
def stepQueue (fs : FileSys) (q : List String) : Cmd → List String
  | .add pats =>
    if pats = [] then q
    else
      let found := addFound fs pats
      if found = [] then q
      else q ++ (found.filter fun p => p ∉ q)
  | .clearq => []
  | .listq => q
  | .runq => q
  | .unknown => q

/-- The queue after a whole session: `main` starts with `queue = []` and
folds the commands over it. -/
def runSession (fs : FileSys) (cmds : List Cmd) : List String :=
  cmds.foldl (stepQueue fs) []

/-- The feedback line printed by the `add` handler: the usage hint when
no patterns follow, `"No supported files found"` when nothing matched,
and otherwise `"Added {len(found)} files"` where `found` counts every
discovered supported file, queued already or not. -/
def addResultMessage (fs : FileSys) (pats : List String) : Option String :=
  if pats = [] then some "Usage: add <files>"
  else if addFound fs pats = [] then some "No supported files found"
  else some ("Added " ++ toString (addFound fs pats).length ++ " files")

/-! ## Budget lemmas for `build_context` -/

theorem joinAll_foldl_length (lines : List String) (acc : String) :
    (lines.foldl (fun a s => a ++ s) acc).length = acc.length + (lines.map String.length).sum := by
  induction lines generalizing acc with
  | nil => simp
  | cons s rest ih => simp [ih, String.length_append]; omega

theorem joinAll_length (lines : List String) :
    (joinAll lines).length = (lines.map String.length).sum := by
  simpa using joinAll_foldl_length lines ""

theorem contextChunk_length_le (it : EvidenceItem) (remaining : Int)
    (h : 0 < remaining) : (contextChunk it remaining).length ≤ remaining.toNat := by
  unfold contextChunk
  split
  · show ((contextChunkStr it).data.take remaining.toNat).length ≤ remaining.toNat
    rw [List.length_take]
    omega
  · next hshort =>
    omega

theorem buildContextLoop_sum_le (items : List EvidenceItem) (remaining : Int) :
    (((buildContextLoop items remaining).1).map String.length).sum ≤ remaining.toNat := by
  induction items generalizing remaining with
  | nil => simp [buildContextLoop]
  | cons it rest ih =>
    rw [buildContextLoop]
    by_cases h : remaining ≤ 0
    · simp [h]
    · rw [if_neg h]
      have hch := contextChunk_length_le it remaining (by omega)
      have hrest := ih (remaining - (contextChunk it remaining).length)
      simp only [List.map_cons, List.sum_cons]
      omega

/-- C1 (amended): the context string built by `build_context` has length
at most `max max_chars 9`, where `9 = len("Evidence:")`; in particular,
whenever `max_chars ≥ 9` the budget is respected even when excerpts are
longer than the remaining budget. -/
theorem build_context_length_le_max (items : List EvidenceItem) (max_chars : Int) :
    ((build_context items max_chars).1.length : Int) ≤ max max_chars 9 := by
  have h9 : ("Evidence:" : String).length = 9 := rfl
  have hloop := buildContextLoop_sum_le items (max_chars - 9)
  have hlen : (build_context items max_chars).1.length =
      9 + (((buildContextLoop items (max_chars - 9)).1).map String.length).sum := by
    show (joinAll ("Evidence:" :: (buildContextLoop items (max_chars - 9)).1)).length = _
    rw [joinAll_length]
    simp [h9]
  rw [hlen]
  omega

/-- C1 (counterexample): with an empty evidence list and a zero budget
the returned context is the 9-character header `"Evidence:"`, so its
length is not at most `max_chars`. -/
theorem build_context_exceeds_budget_cex :
    (build_context [] 0).1 = "Evidence:" ∧
    ¬ (((build_context [] 0).1.length : Int) ≤ 0) := by
  constructor
  · rfl
  · decide

/-! ## Extraction budget and placeholder behaviour -/

/-- C2 (amended): on the successful-extraction branch each of
`read_pdf`, `read_docx` and `read_xlsx` returns a string of length at
most `max_chars` (the final `[:max_chars]` slice); the missing-library
and error branches are not subject to the budget. -/
theorem read_extract_success_length_le (ps paras : List String)
    (wss : List Worksheet) (max_chars : Nat) :
    (read_pdf (.pages ps) max_chars).length ≤ max_chars ∧
    (read_docx (.paras paras) max_chars).length ≤ max_chars ∧
    (read_xlsx (.sheets wss) max_chars).length ≤ max_chars := by
  refine ⟨?_, ?_, ?_⟩ <;>
    · show ((_ : List Char).take max_chars).length ≤ max_chars
      rw [List.length_take]
      omega

/-- C2 (counterexample): the missing-library branches return fixed
placeholder strings whose length exceeds a small requested budget. -/
theorem read_noLib_exceeds_budget_cex :
    ¬ ((read_pdf .noLib 5).length ≤ 5) ∧
    ¬ ((read_docx .noLib 5).length ≤ 5) ∧
    ¬ ((read_xlsx .noLib 5).length ≤ 5) := by
  refine ⟨?_, ?_, ?_⟩ <;> decide

/-- C3: extraction is total over its modelled failure modes: when the
parsing library is absent the readers return the `"(Install ...)"`
placeholder, and when the library raises they return the inline
`"(<FORMAT> error: ...)"` placeholder carrying the exception message,
for every budget. -/
theorem read_failure_placeholders (e : String) (max_chars : Nat) :
    read_pdf .noLib max_chars = "(Install pypdf)" ∧
    read_pdf (.failure e) max_chars = "(PDF error: " ++ e ++ ")" ∧
    read_docx .noLib max_chars = "(Install python-docx)" ∧
    read_docx (.failure e) max_chars = "(DOCX error: " ++ e ++ ")" ∧
    read_xlsx .noLib max_chars = "(Install openpyxl)" ∧
    read_xlsx (.failure e) max_chars = "(XLSX error: " ++ e ++ ")" :=
  ⟨rfl, rfl, rfl, rfl, rfl, rfl⟩

/-! ## Startup gate -/

/-- C8: if `ANTHROPIC_API_KEY` is absent from the environment at
startup, the program prints the error and exits with status 1 without
entering the interactive loop; if it is present, startup proceeds. -/
theorem startup_missing_key_fatal (env : List (String × String)) :
    (env.lookup "ANTHROPIC_API_KEY" = none →
      startupCheck env = .fatal "ERROR: Set ANTHROPIC_API_KEY" 1) ∧
    ((env.lookup "ANTHROPIC_API_KEY").isSome → startupCheck env = .proceed) := by
  constructor
  · intro h
    simp [startupCheck, h]
  · intro h
    simp [startupCheck, h]

/-- Witness for C8 at two concrete environments. -/
theorem startup_missing_key_fatal_witness :
    startupCheck [] = .fatal "ERROR: Set ANTHROPIC_API_KEY" 1 ∧
    startupCheck [("ANTHROPIC_API_KEY", "k")] = .proceed :=
  ⟨(startup_missing_key_fatal []).1 rfl,
   (startup_missing_key_fatal [("ANTHROPIC_API_KEY", "k")]).2 (by decide)⟩

/-! ## Deduplication: `list(dict.fromkeys(paths))` keeps first occurrences -/

/-- First-occurrence deduplication in recursive form: keep the head and
deduplicate the tail with the remaining copies of the head removed. -/
def dedupF : List String → List String
  | [] => []
  | p :: ps => p :: dedupF (ps.filter fun x => x ≠ p)
termination_by l => l.length
decreasing_by
  exact Nat.lt_succ_of_le (List.length_filter_le _ _)

theorem fromkeys_go (l acc : List String) :
    l.foldl (fun acc p => if p ∈ acc then acc else acc ++ [p]) acc =
      acc ++ dedupF (l.filter fun x => x ∉ acc) := by
  induction l generalizing acc with
  | nil => simp [dedupF]
  | cons a t ih =>
    rw [List.foldl_cons]
    by_cases ha : a ∈ acc
    · simp only [if_pos ha]
      rw [ih]
      have : ((a :: t).filter fun x => x ∉ acc) = t.filter fun x => x ∉ acc := by
        simp [List.filter_cons, ha]
      rw [this]
    · simp only [if_neg ha]
      rw [ih]
      have h1 : ((a :: t).filter fun x => x ∉ acc) = a :: t.filter fun x => x ∉ acc := by
        simp [List.filter_cons, ha]
      rw [h1, dedupF]
      have h2 : ((t.filter fun x => x ∉ acc).filter fun x => x ≠ a) =
          t.filter fun x => x ∉ acc ++ [a] := by
        rw [List.filter_filter]
        apply List.filter_congr
        intro x _
        simp [List.mem_append, not_or, and_comm]
      rw [h2]
      simp

/-- `fromkeysList` agrees with the recursive first-occurrence form. -/
theorem fromkeysList_eq_dedupF (l : List String) : fromkeysList l = dedupF l := by
  unfold fromkeysList
  rw [fromkeys_go]
  have : (l.filter fun x => x ∉ ([] : List String)) = l := by
    apply List.filter_eq_self.mpr
    intro x _
    simp
  rw [this]
  simp

theorem dedupF_mem (l : List String) (x : String) : x ∈ dedupF l ↔ x ∈ l := by
  induction l using dedupF.induct with
  | case1 => simp [dedupF]
  | case2 p ps ih =>
    rw [dedupF]
    constructor
    · intro h
      rcases List.mem_cons.mp h with h | h
      · simp [h]
      · have := (ih.mp h)
        have := List.mem_filter.mp this
        exact List.mem_cons_of_mem _ this.1
    · intro h
      rcases List.mem_cons.mp h with h | h
      · simp [h]
      · by_cases hxp : x = p
        · simp [hxp]
        · apply List.mem_cons_of_mem
          apply ih.mpr
          apply List.mem_filter.mpr
          exact ⟨h, by simp [hxp]⟩

theorem dedupF_nodup (l : List String) : (dedupF l).Nodup := by
  induction l using dedupF.induct with
  | case1 => simp [dedupF]
  | case2 p ps ih =>
    rw [dedupF]
    apply List.Nodup.cons _ ih
    intro hmem
    have h := (dedupF_mem _ _).mp hmem
    have := (List.mem_filter.mp h).2
    simp at this

theorem filter_indexOf_lt_iff (pred : String → Bool) (t : List String) (x y : String)
    (hx : x ∈ t) (hy : y ∈ t) (hpx : pred x = true) (hpy : pred y = true) :
    ((t.filter pred).indexOf x < (t.filter pred).indexOf y ↔ t.indexOf x < t.indexOf y) := by
  induction t with
  | nil => cases hx
  | cons b s ih =>
    by_cases hpb : pred b = true
    · rw [List.filter_cons_of_pos hpb]
      by_cases hxb : b = x
      · subst hxb
        rw [List.indexOf_cons_self, List.indexOf_cons_self]
        by_cases hyb : b = y
        · subst hyb
          simp
        · rw [List.indexOf_cons_ne _ hyb, List.indexOf_cons_ne _ hyb]
          simp
      · rw [List.indexOf_cons_ne _ hxb, List.indexOf_cons_ne _ hxb]
        by_cases hyb : b = y
        · subst hyb
          rw [List.indexOf_cons_self, List.indexOf_cons_self]
          simp
        · rw [List.indexOf_cons_ne _ hyb, List.indexOf_cons_ne _ hyb]
          have hx' : x ∈ s := by
            rcases List.mem_cons.mp hx with h | h
            · exact absurd h.symm hxb
            · exact h
          have hy' : y ∈ s := by
            rcases List.mem_cons.mp hy with h | h
            · exact absurd h.symm hyb
            · exact h
          rw [Nat.succ_lt_succ_iff, Nat.succ_lt_succ_iff]
          exact ih hx' hy'
    · have hpb' : pred b = false := by simpa using hpb
      rw [List.filter_cons_of_neg (by simp [hpb'])]
      have hxb : b ≠ x := fun h => by rw [h] at hpb'; rw [hpx] at hpb'; cases hpb'
      have hyb : b ≠ y := fun h => by rw [h] at hpb'; rw [hpy] at hpb'; cases hpb'
      have hx' : x ∈ s := by
        rcases List.mem_cons.mp hx with h | h
        · exact absurd h.symm hxb
        · exact h
      have hy' : y ∈ s := by
        rcases List.mem_cons.mp hy with h | h
        · exact absurd h.symm hyb
        · exact h
      rw [List.indexOf_cons_ne _ hxb, List.indexOf_cons_ne _ hyb,
        Nat.succ_lt_succ_iff]
      exact ih hx' hy'

theorem dedupF_indexOf_lt_iff (l : List String) (x y : String)
    (hx : x ∈ l) (hy : y ∈ l) :
    ((dedupF l).indexOf x < (dedupF l).indexOf y ↔ l.indexOf x < l.indexOf y) := by
  induction l using dedupF.induct with
  | case1 => cases hx
  | case2 p ps ih =>
    rw [dedupF]
    by_cases hxp : p = x
    · subst hxp
      rw [List.indexOf_cons_self, List.indexOf_cons_self]
      by_cases hyp : p = y
      · subst hyp
        simp
      · rw [List.indexOf_cons_ne _ hyp, List.indexOf_cons_ne _ hyp]
        simp
    · rw [List.indexOf_cons_ne _ hxp, List.indexOf_cons_ne _ hxp]
      by_cases hyp : p = y
      · subst hyp
        rw [List.indexOf_cons_self, List.indexOf_cons_self]
        simp
      · rw [List.indexOf_cons_ne _ hyp, List.indexOf_cons_ne _ hyp,
          Nat.succ_lt_succ_iff, Nat.succ_lt_succ_iff]
        have hx' : x ∈ ps := by
          rcases List.mem_cons.mp hx with h | h
          · exact absurd h.symm hxp
          · exact h
        have hy' : y ∈ ps := by
          rcases List.mem_cons.mp hy with h | h
          · exact absurd h.symm hyp
          · exact h
        have hxf : x ∈ ps.filter fun z => z ≠ p := by
          apply List.mem_filter.mpr
          refine ⟨hx', by simp; exact fun h => hxp h.symm⟩
        have hyf : y ∈ ps.filter fun z => z ≠ p := by
          apply List.mem_filter.mpr
          refine ⟨hy', by simp; exact fun h => hyp h.symm⟩
        rw [ih hxf hyf]
        exact filter_indexOf_lt_iff _ ps x y hx' hy'
          (by simp; exact fun h => hxp h.symm) (by simp; exact fun h => hyp h.symm)

/-- C4: `discover_paths` returns the candidate paths without duplicates;
exactly the candidate paths appear, and two distinct surviving paths are
ordered by the positions of their first occurrences in the candidate
sequence. -/
theorem discover_paths_dedup_first_seen (fs : FileSys) (patterns : List String) :
    (discover_paths fs patterns).Nodup ∧
    (∀ x, x ∈ discover_paths fs patterns ↔ x ∈ candidatePaths fs patterns) ∧
    (∀ x y, x ∈ candidatePaths fs patterns → y ∈ candidatePaths fs patterns →
      ((discover_paths fs patterns).indexOf x < (discover_paths fs patterns).indexOf y ↔
        (candidatePaths fs patterns).indexOf x < (candidatePaths fs patterns).indexOf y)) := by
  unfold discover_paths
  rw [fromkeysList_eq_dedupF]
  exact ⟨dedupF_nodup _, fun x => dedupF_mem _ x,
    fun x y hx hy => dedupF_indexOf_lt_iff _ x y hx hy⟩

/-- A concrete filesystem: one glob call yields `b`, `a`, `b` again. -/
def fsDup : FileSys :=
  { glob := fun _ => ["b", "a", "b"]
    resolve := fun s => s
    pathExists := fun _ => true
    pathIsFile := fun _ => true }

/-- Witness for C4: on `fsDup` the duplicate is dropped, both paths
survive, and `b` (seen first) stays ahead of `a`. -/
theorem discover_paths_dedup_first_seen_witness :
    (discover_paths fsDup ["*"]).Nodup ∧
    ("b" ∈ discover_paths fsDup ["*"]) ∧
    ((discover_paths fsDup ["*"]).indexOf "b" < (discover_paths fsDup ["*"]).indexOf "a" ↔
      (candidatePaths fsDup ["*"]).indexOf "b" < (candidatePaths fsDup ["*"]).indexOf "a") :=
  ⟨(discover_paths_dedup_first_seen fsDup ["*"]).1,
   ((discover_paths_dedup_first_seen fsDup ["*"]).2.1 "b").mpr (by decide),
   (discover_paths_dedup_first_seen fsDup ["*"]).2.2 "b" "a" (by decide) (by decide)⟩

/-! ## Adjacent-pair predicates over character lists -/

/-- `noTwoP bad l` holds when no two adjacent characters `a b` of `l`
satisfy `bad a b`. -/
def noTwoP (bad : Char → Char → Bool) : List Char → Bool
  | a :: b :: r => !(bad a b) && noTwoP bad (b :: r)
  | _ => true

/-- Two adjacent spaces-or-tabs (a run the first regex should have
collapsed). -/
def stBad (a b : Char) : Bool := isSpaceTab a && isSpaceTab b

/-- Two adjacent newline characters (a blank line the second regex
should have collapsed). -/
def nlBad (a b : Char) : Bool := a = '\n' && b = '\n'

theorem noTwoP_cons (bad : Char → Char → Bool) (a : Char) (l : List Char) :
    noTwoP bad (a :: l) = true ↔
      ((∀ b, l.head? = some b → bad a b = false) ∧ noTwoP bad l = true) := by
  cases l with
  | nil => simp [noTwoP]
  | cons b r =>
    show (!(bad a b) && noTwoP bad (b :: r)) = true ↔ _
    rw [Bool.and_eq_true, Bool.not_eq_true']
    constructor
    · rintro ⟨h1, h2⟩
      refine ⟨fun b' hb' => ?_, h2⟩
      rw [List.head?_cons] at hb'
      injection hb' with hb'
      rw [← hb']
      exact h1
    · rintro ⟨h1, h2⟩
      exact ⟨h1 b rfl, h2⟩

theorem noTwoP_tail (bad : Char → Char → Bool) (a : Char) (l : List Char)
    (h : noTwoP bad (a :: l) = true) : noTwoP bad l = true :=
  ((noTwoP_cons bad a l).mp h).2

theorem noTwoP_head (bad : Char → Char → Bool) (a b : Char) (l : List Char)
    (h : noTwoP bad (a :: l) = true) (hb : l.head? = some b) : bad a b = false :=
  ((noTwoP_cons bad a l).mp h).1 b hb

theorem noTwoP_cons_of (bad : Char → Char → Bool) (a : Char) (l : List Char)
    (h1 : ∀ b, l.head? = some b → bad a b = false) (h2 : noTwoP bad l = true) :
    noTwoP bad (a :: l) = true :=
  (noTwoP_cons bad a l).mpr ⟨h1, h2⟩

theorem noTwoP_dropWhile (bad : Char → Char → Bool) (p : Char → Bool) (l : List Char)
    (h : noTwoP bad l = true) : noTwoP bad (l.dropWhile p) = true := by
  induction l with
  | nil => exact h
  | cons c cs ih =>
    rw [List.dropWhile_cons]
    split
    · exact ih (noTwoP_tail _ _ _ h)
    · exact h

theorem dropTrailing_head (p : Char → Bool) (l : List Char)
    (h : dropTrailing p l ≠ []) : (dropTrailing p l).head? = l.head? := by
  cases l with
  | nil => simp [dropTrailing] at h
  | cons c cs =>
    cases hr : dropTrailing p cs with
    | nil =>
      by_cases hp : p c = true
      · exfalso
        apply h
        rw [dropTrailing, hr, if_pos hp]
      · rw [dropTrailing, hr, if_neg hp]
        simp
    | cons x xs =>
      rw [dropTrailing, hr]
      simp

theorem dropTrailing_getLast (p : Char → Bool) (l : List Char) (c : Char)
    (h : (dropTrailing p l).getLast? = some c) : p c = false := by
  induction l with
  | nil => simp [dropTrailing] at h
  | cons a cs ih =>
    revert h
    cases hr : dropTrailing p cs with
    | nil =>
      by_cases hp : p a = true
      · intro h
        rw [dropTrailing, hr, if_pos hp] at h
        simp at h
      · intro h
        rw [dropTrailing, hr, if_neg hp] at h
        rw [List.getLast?_singleton] at h
        injection h with h
        rw [← h]
        simpa using hp
    | cons x xs =>
      intro h
      rw [dropTrailing, hr, List.getLast?_cons_cons, ← hr] at h
      exact ih h

theorem dropTrailing_mem (p : Char → Bool) (l : List Char) (d : Char)
    (h : d ∈ dropTrailing p l) : d ∈ l := by
  induction l with
  | nil => exact h
  | cons a cs ih =>
    revert h
    cases hr : dropTrailing p cs with
    | nil =>
      by_cases hp : p a = true
      · rw [dropTrailing, hr, if_pos hp]
        intro h
        cases h
      · rw [dropTrailing, hr, if_neg hp]
        intro h
        rw [List.mem_singleton] at h
        simp [h]
    | cons x xs =>
      rw [dropTrailing, hr]
      intro h
      rcases List.mem_cons.mp h with h | h
      · simp [h]
      · exact List.mem_cons_of_mem _ (ih (by rw [hr]; exact h))

theorem noTwoP_dropTrailing (bad : Char → Char → Bool) (p : Char → Bool) (l : List Char)
    (h : noTwoP bad l = true) : noTwoP bad (dropTrailing p l) = true := by
  induction l with
  | nil => simpa [dropTrailing] using h
  | cons c cs ih =>
    cases hr : dropTrailing p cs with
    | nil =>
      rw [dropTrailing, hr]
      by_cases hp : p c = true
      · rw [if_pos hp]
        rfl
      · rw [if_neg hp]
        rfl
    | cons x xs =>
      rw [dropTrailing, hr]
      have h2 : noTwoP bad (x :: xs) = true := by
        rw [← hr]
        exact ih (noTwoP_tail _ _ _ h)
      apply noTwoP_cons_of _ _ _ _ h2
      intro b hb
      rw [List.head?_cons] at hb
      injection hb with hb
      have hne : dropTrailing p cs ≠ [] := by rw [hr]; simp
      have hh := dropTrailing_head p cs hne
      rw [hr, List.head?_cons] at hh
      rw [← hb]
      exact noTwoP_head bad c x cs h hh.symm

theorem dropTrailing_id (p : Char → Bool) (l : List Char)
    (h : ∀ d, l.getLast? = some d → p d = false) : dropTrailing p l = l := by
  induction l with
  | nil => rfl
  | cons a cs ih =>
    cases hcs : cs with
    | nil =>
      subst hcs
      have hpa : p a = false := h a (by simp)
      rw [dropTrailing]
      simp [dropTrailing, hpa]
    | cons b cs' =>
      subst hcs
      have hcs' : dropTrailing p (b :: cs') = b :: cs' := by
        apply ih
        intro d hd
        apply h
        rw [List.getLast?_cons_cons]
        exact hd
      rw [dropTrailing, hcs']

theorem dropWhile_id (p : Char → Bool) (l : List Char)
    (h : ∀ d, l.head? = some d → p d = false) : l.dropWhile p = l := by
  cases l with
  | nil => rfl
  | cons a cs =>
    rw [List.dropWhile_cons, if_neg]
    rw [h a rfl]
    simp

/-! ## Invariants established by the two substitutions -/

theorem collapseST_true_head (l : List Char) (c : Char)
    (h : (collapseST l true).head? = some c) : isSpaceTab c = false := by
  induction l with
  | nil => simp [collapseST] at h
  | cons a cs ih =>
    by_cases ha : isSpaceTab a = true
    · simp only [collapseST, ha, if_true] at h
      exact ih h
    · simp only [collapseST, ha, if_false, Bool.false_eq_true, List.head?_cons] at h
      injection h with h
      rw [← h]
      simpa using ha

theorem collapseST_noTwoP (l : List Char) (flag : Bool) :
    noTwoP stBad (collapseST l flag) = true := by
  induction l generalizing flag with
  | nil => rfl
  | cons a cs ih =>
    by_cases ha : isSpaceTab a = true
    · cases flag with
      | true => simpa only [collapseST, ha, if_true] using ih true
      | false =>
        simp only [collapseST, ha, if_true, Bool.false_eq_true, if_false]
        apply noTwoP_cons_of
        · intro b hb
          have hbst := collapseST_true_head cs b hb
          simp [stBad, hbst]
        · exact ih true
    · simp only [collapseST, ha, Bool.false_eq_true, if_false]
      apply noTwoP_cons_of
      · intro b hb
        simp only [stBad]
        rw [Bool.and_eq_false_iff]
        left
        simpa using ha
      · exact ih false

theorem collapseST_no_tab (l : List Char) (flag : Bool) : '\t' ∉ collapseST l flag := by
  induction l generalizing flag with
  | nil => simp [collapseST]
  | cons a cs ih =>
    by_cases ha : isSpaceTab a = true
    · cases flag with
      | true => simpa only [collapseST, ha, if_true] using ih true
      | false =>
        simp only [collapseST, ha, if_true, Bool.false_eq_true, if_false]
        intro hmem
        rcases List.mem_cons.mp hmem with h | h
        · cases h
        · exact ih true h
    · simp only [collapseST, ha, Bool.false_eq_true, if_false]
      intro hmem
      rcases List.mem_cons.mp hmem with h | h
      · rw [← h] at ha
        simp [isSpaceTab] at ha
      · exact ih false h

theorem collapseST_mem (l : List Char) (flag : Bool) (d : Char)
    (h : d ∈ collapseST l flag) : d ∈ l ∨ d = ' ' := by
  induction l generalizing flag with
  | nil => simp [collapseST] at h
  | cons a cs ih =>
    by_cases ha : isSpaceTab a = true
    · cases flag with
      | true =>
        rw [collapseST] at h
        simp only [ha, if_true] at h
        rcases ih true h with h | h
        · exact Or.inl (List.mem_cons_of_mem _ h)
        · exact Or.inr h
      | false =>
        rw [collapseST] at h
        simp only [ha, if_true, Bool.false_eq_true, if_false] at h
        rcases List.mem_cons.mp h with h | h
        · exact Or.inr h
        · rcases ih true h with h | h
          · exact Or.inl (List.mem_cons_of_mem _ h)
          · exact Or.inr h
    · rw [collapseST] at h
      simp only [ha, Bool.false_eq_true, if_false] at h
      rcases List.mem_cons.mp h with h | h
      · exact Or.inl (by simp [h])
      · rcases ih false h with h | h
        · exact Or.inl (List.mem_cons_of_mem _ h)
        · exact Or.inr h

theorem collapseNL_mem (l : List Char) (flag : Bool) (d : Char)
    (h : d ∈ collapseNL l flag) : d ∈ l ∨ d = '\n' := by
  induction l, flag using collapseNL.induct with
  | case1 => simp [collapseNL] at h
  | case2 cs fl ih =>
    rw [collapseNL] at h
    rcases List.mem_cons.mp h with h | h
    · exact Or.inr h
    · rcases ih h with h | h
      · exact Or.inl (by simp [h])
      · exact Or.inr h
  | case3 cs ih =>
    rw [collapseNL] at h
    rcases ih h with h | h
    · exact Or.inl (by simp [h])
    · exact Or.inr h
  | case4 cs ih =>
    rw [collapseNL] at h
    rcases List.mem_cons.mp h with h | h
    · exact Or.inr h
    · rcases ih h with h | h
      · exact Or.inl (by simp [h])
      · exact Or.inr h
  | case5 c cs fl hne1 hne2 hne3 ih =>
    have hstep : collapseNL (c :: cs) fl = c :: collapseNL cs false := by
      rw [collapseNL]
      exacts [hne1, hne2, hne3]
    rw [hstep] at h
    rcases List.mem_cons.mp h with h | h
    · exact Or.inl (by simp [h])
    · rcases ih h with h | h
      · exact Or.inl (List.mem_cons_of_mem _ h)
      · exact Or.inr h

theorem collapseNL_st_aux (cs : List Char) (flag : Bool) :
    noTwoP stBad cs = true →
    noTwoP stBad (collapseNL cs flag) = true ∧
    (∀ d, flag = false → (collapseNL cs flag).head? = some d →
      isSpaceTab d = false ∨ cs.head? = some d) := by
  induction cs, flag using collapseNL.induct with
  | case1 =>
    intro h
    exact ⟨rfl, by intro d hfl hd; simp [collapseNL] at hd⟩
  | case2 cs fl ih =>
    intro h
    have hcs : noTwoP stBad cs = true := noTwoP_tail _ _ _ (noTwoP_tail _ _ _ h)
    rcases ih hcs with ⟨ih1, _⟩
    constructor
    · rw [collapseNL]
      apply noTwoP_cons_of _ _ _ _ ih1
      intro b hb
      simp [stBad, isSpaceTab]
    · intro d hfl hd
      rw [collapseNL, List.head?_cons] at hd
      injection hd with hd
      rw [← hd]
      left
      rfl
  | case3 cs ih =>
    intro h
    have hcs : noTwoP stBad cs = true := noTwoP_tail _ _ _ h
    rcases ih hcs with ⟨ih1, _⟩
    refine ⟨by rw [collapseNL]; exact ih1, ?_⟩
    intro d hfl
    simp at hfl
  | case4 cs ih =>
    intro h
    have hcs : noTwoP stBad cs = true := noTwoP_tail _ _ _ h
    rcases ih hcs with ⟨ih1, _⟩
    constructor
    · rw [collapseNL]
      apply noTwoP_cons_of _ _ _ _ ih1
      intro b hb
      simp [stBad, isSpaceTab]
    · intro d hfl hd
      rw [collapseNL, List.head?_cons] at hd
      injection hd with hd
      rw [← hd]
      left
      rfl
  | case5 c cs fl hne1 hne2 hne3 ih =>
    intro h
    have hstep : collapseNL (c :: cs) fl = c :: collapseNL cs false := by
      rw [collapseNL]
      exacts [hne1, hne2, hne3]
    have hcs : noTwoP stBad cs = true := noTwoP_tail _ _ _ h
    rcases ih hcs with ⟨ih1, ih2⟩
    constructor
    · rw [hstep]
      apply noTwoP_cons_of _ _ _ _ ih1
      intro b hb
      by_cases hstc : isSpaceTab c = true
      · rcases ih2 b rfl hb with h' | hhd
        · simp [stBad, h']
        · exact noTwoP_head stBad c b cs h hhd
      · simp only [stBad]
        rw [Bool.and_eq_false_iff]
        left
        simpa using hstc
    · intro d hfl hd
      rw [hstep, List.head?_cons] at hd
      injection hd with hd
      by_cases hstc : isSpaceTab c = true
      · right
        rw [← hd]
        exact List.head?_cons
      · left
        rw [← hd]
        simpa using hstc

theorem collapseNL_nl_aux (cs : List Char) (flag : Bool) :
    '\r' ∉ cs →
    noTwoP nlBad (collapseNL cs flag) = true ∧
    (∀ d, flag = true → (collapseNL cs flag).head? = some d → d ≠ '\n') := by
  induction cs, flag using collapseNL.induct with
  | case1 =>
    intro h
    exact ⟨rfl, by intro d hfl hd; simp [collapseNL] at hd⟩
  | case2 cs fl ih =>
    intro h
    exact absurd (by simp : '\r' ∈ '\r' :: '\n' :: cs) h
  | case3 cs ih =>
    intro h
    have hcs : '\r' ∉ cs := fun hm => h (List.mem_cons_of_mem _ hm)
    rcases ih hcs with ⟨ih1, ih2⟩
    rw [collapseNL]
    exact ⟨ih1, ih2⟩
  | case4 cs ih =>
    intro h
    have hcs : '\r' ∉ cs := fun hm => h (List.mem_cons_of_mem _ hm)
    rcases ih hcs with ⟨ih1, ih2⟩
    constructor
    · rw [collapseNL]
      apply noTwoP_cons_of _ _ _ _ ih1
      intro b hb
      have hbne := ih2 b rfl hb
      simp [nlBad, hbne]
    · intro d hfl
      simp at hfl
  | case5 c cs fl hne1 hne2 hne3 ih =>
    intro h
    have hstep : collapseNL (c :: cs) fl = c :: collapseNL cs false := by
      rw [collapseNL]
      exacts [hne1, hne2, hne3]
    have hcn : c ≠ '\n' := by
      intro hc
      cases fl with
      | true => exact hne2 hc rfl
      | false => exact hne3 hc rfl
    have hcs : '\r' ∉ cs := fun hm => h (List.mem_cons_of_mem _ hm)
    rcases ih hcs with ⟨ih1, _⟩
    constructor
    · rw [hstep]
      apply noTwoP_cons_of _ _ _ _ ih1
      intro b hb
      simp [nlBad, hcn]
    · intro d hfl hd
      rw [hstep, List.head?_cons] at hd
      injection hd with hd
      rw [← hd]
      exact hcn

/-! ## Identity of the substitutions on already-normalized text -/

theorem collapseST_id (l : List Char) (flag : Bool)
    (h : noTwoP stBad l = true) (ht : '\t' ∉ l)
    (hflag : flag = true → ∀ d, l.head? = some d → isSpaceTab d = false) :
    collapseST l flag = l := by
  induction l generalizing flag with
  | nil => rfl
  | cons a cs ih =>
    by_cases ha : isSpaceTab a = true
    · cases flag with
      | true =>
        have := hflag rfl a rfl
        rw [ha] at this
        cases this
      | false =>
        have hat : a ≠ '\t' := fun hb => ht (by simp [hb])
        have haSp : a = ' ' := by
          simp only [isSpaceTab, Bool.or_eq_true, decide_eq_true_eq] at ha
          rcases ha with h' | h'
          · exact h'
          · exact absurd h' hat
        simp only [collapseST, ha, if_true, Bool.false_eq_true, if_false]
        rw [haSp]
        congr 1
        apply ih true (noTwoP_tail _ _ _ h) (fun hm => ht (List.mem_cons_of_mem _ hm))
        intro _ d hd
        have := noTwoP_head stBad a d cs h hd
        simp only [stBad, ha, Bool.true_and] at this
        exact this
    · simp only [collapseST, ha, Bool.false_eq_true, if_false]
      congr 1
      apply ih false (noTwoP_tail _ _ _ h) (fun hm => ht (List.mem_cons_of_mem _ hm))
      intro hfl
      cases hfl

theorem collapseNL_id (l : List Char) (flag : Bool)
    (hr : '\r' ∉ l) (hnl : noTwoP nlBad l = true)
    (hflag : flag = true → ∀ d, l.head? = some d → d ≠ '\n') :
    collapseNL l flag = l := by
  induction l, flag using collapseNL.induct with
  | case1 => rfl
  | case2 cs fl ih =>
    exact absurd (by simp : '\r' ∈ '\r' :: '\n' :: cs) hr
  | case3 cs ih =>
    exact absurd rfl (hflag rfl '\n' rfl)
  | case4 cs ih =>
    rw [collapseNL]
    congr 1
    apply ih (fun hm => hr (List.mem_cons_of_mem _ hm)) (noTwoP_tail _ _ _ hnl)
    intro _ d hd
    have := noTwoP_head nlBad '\n' d cs hnl hd
    simp only [nlBad] at this
    simpa using this
  | case5 c cs fl hne1 hne2 hne3 ih =>
    have hstep : collapseNL (c :: cs) fl = c :: collapseNL cs false := by
      rw [collapseNL]
      exacts [hne1, hne2, hne3]
    rw [hstep]
    congr 1
    apply ih (fun hm => hr (List.mem_cons_of_mem _ hm)) (noTwoP_tail _ _ _ hnl)
    intro hfl
    cases hfl

/-! ## Invariants of `clean_text` output -/

theorem clean_text_data (s : String) :
    (clean_text s).data = pyStrip (collapseNL (collapseST s.data false) false) := rfl

theorem clean_text_noTwoST (s : String) : noTwoP stBad (clean_text s).data = true := by
  rw [clean_text_data]
  apply noTwoP_dropTrailing
  apply noTwoP_dropWhile
  exact (collapseNL_st_aux _ false (collapseST_noTwoP s.data false)).1

theorem clean_text_head_notWS (s : String) (c : Char)
    (h : (clean_text s).data.head? = some c) : pyIsSpace c = false := by
  rw [clean_text_data] at h
  have hne : dropTrailing pyIsSpace ((collapseNL (collapseST s.data false) false).dropWhile pyIsSpace) ≠ [] := by
    intro heq
    rw [pyStrip] at h
    rw [heq] at h
    cases h
  have hh := dropTrailing_head pyIsSpace _ hne
  rw [pyStrip] at h
  rw [hh] at h
  have := List.head?_dropWhile_not pyIsSpace (collapseNL (collapseST s.data false) false)
  rw [h] at this
  exact this

theorem clean_text_last_notWS (s : String) (c : Char)
    (h : (clean_text s).data.getLast? = some c) : pyIsSpace c = false := by
  rw [clean_text_data] at h
  exact dropTrailing_getLast pyIsSpace _ c h

theorem clean_text_no_tab (s : String) : '\t' ∉ (clean_text s).data := by
  rw [clean_text_data]
  intro hmem
  have h1 := dropTrailing_mem _ _ _ hmem
  have h2 := List.Sublist.mem h1 (List.dropWhile_sublist _)
  rcases collapseNL_mem _ _ _ h2 with h3 | h3
  · exact collapseST_no_tab s.data false h3
  · cases h3

theorem clean_text_no_cr (s : String) (hr : '\r' ∉ s.data) : '\r' ∉ (clean_text s).data := by
  rw [clean_text_data]
  intro hmem
  have h1 := dropTrailing_mem _ _ _ hmem
  have h2 := List.Sublist.mem h1 (List.dropWhile_sublist _)
  rcases collapseNL_mem _ _ _ h2 with h3 | h3
  · rcases collapseST_mem _ _ _ h3 with h4 | h4
    · exact hr h4
    · cases h4
  · cases h3

theorem clean_text_noTwoNL (s : String) (hr : '\r' ∉ s.data) :
    noTwoP nlBad (clean_text s).data = true := by
  rw [clean_text_data]
  apply noTwoP_dropTrailing
  apply noTwoP_dropWhile
  have hst : '\r' ∉ collapseST s.data false := by
    intro hm
    rcases collapseST_mem _ _ _ hm with h | h
    · exact hr h
    · cases h
  exact (collapseNL_nl_aux _ false hst).1

/-! ## Claim-side predicates for the normalization claim -/

/-- Split a character list on `'\n'`, as a claim-level notion of the
lines of the output (used to state "no line consisting only of
whitespace"). -/
def splitLines : List Char → List (List Char)
  | [] => [[]]
  | c :: cs =>
    if c = '\n' then [] :: splitLines cs
    else
      match splitLines cs with
      | [] => [[c]]
      | l :: ls => (c :: l) :: ls

/-- A nonempty line made of whitespace only. -/
def isWsOnlyLine (line : List Char) : Bool := !line.isEmpty && line.all pyIsSpace

/-- C5 (amended): `clean_text` output has no two adjacent spaces-or-tabs
and no leading or trailing whitespace.  The blank-line clause of the
original claim is dropped: consecutive newlines can survive CRLF input
and whitespace-only lines between newlines survive. -/
theorem clean_text_spacetab_strip (s : String) :
    noTwoP stBad (clean_text s).data = true ∧
    (∀ c, (clean_text s).data.head? = some c → pyIsSpace c = false) ∧
    (∀ c, (clean_text s).data.getLast? = some c → pyIsSpace c = false) :=
  ⟨clean_text_noTwoST s,
   fun c h => clean_text_head_notWS s c h,
   fun c h => clean_text_last_notWS s c h⟩

/-- Witness for C5 at `" a  b "`: the output `"a b"` has no adjacent
space/tab pair, and its first and last characters are not whitespace. -/
theorem clean_text_spacetab_strip_witness :
    noTwoP stBad (clean_text " a  b ").data = true ∧
    pyIsSpace 'a' = false ∧ pyIsSpace 'b' = false :=
  ⟨(clean_text_spacetab_strip " a  b ").1,
   (clean_text_spacetab_strip " a  b ").2.1 'a' (by decide),
   (clean_text_spacetab_strip " a  b ").2.2 'b' (by decide)⟩

/-- C5 (counterexample): on `"a\r\n\r\nb"` the output `"a\n\nb"` keeps
two consecutive newline characters (the regex `\r?\n+` consumes the
`\r\n` pairs separately), and on `"a\n \nb"` the single interior space
survives as a line consisting only of whitespace. -/
theorem clean_text_blank_line_cex :
    clean_text "a\r\n\r\nb" = "a\n\nb" ∧
    noTwoP nlBad (clean_text "a\r\n\r\nb").data = false ∧
    clean_text "a\n \nb" = "a\n \nb" ∧
    (splitLines (clean_text "a\n \nb").data).any isWsOnlyLine = true := by
  refine ⟨by decide, by decide, by decide, by decide⟩

/-! ## Idempotence of `clean_text` -/

theorem pyStrip_id (l : List Char)
    (hh : ∀ d, l.head? = some d → pyIsSpace d = false)
    (hl : ∀ d, l.getLast? = some d → pyIsSpace d = false) :
    pyStrip l = l := by
  rw [pyStrip, dropWhile_id pyIsSpace l hh]
  exact dropTrailing_id pyIsSpace l hl

/-- C9 (amended): `clean_text` is idempotent on every input that
contains no carriage return. -/
theorem clean_text_idem_no_cr (s : String) (hr : '\r' ∉ s.data) :
    clean_text (clean_text s) = clean_text s := by
  have h1 : noTwoP stBad (clean_text s).data = true := clean_text_noTwoST s
  have h2 : '\t' ∉ (clean_text s).data := clean_text_no_tab s
  have h3 : '\r' ∉ (clean_text s).data := clean_text_no_cr s hr
  have h4 : noTwoP nlBad (clean_text s).data = true := clean_text_noTwoNL s hr
  have hA : collapseST (clean_text s).data false = (clean_text s).data :=
    collapseST_id _ false h1 h2 (fun hfl => by cases hfl)
  have hB : collapseNL (clean_text s).data false = (clean_text s).data :=
    collapseNL_id _ false h3 h4 (fun hfl => by cases hfl)
  have hC : pyStrip (clean_text s).data = (clean_text s).data :=
    pyStrip_id _ (fun d hd => clean_text_head_notWS s d hd)
      (fun d hd => clean_text_last_notWS s d hd)
  show (⟨pyStrip (collapseNL (collapseST (clean_text s).data false) false)⟩ : String) = clean_text s
  rw [hA, hB, hC]

/-- Witness for C9 at `"a  b\n\nc"`, which contains no carriage
return. -/
theorem clean_text_idem_no_cr_witness :
    clean_text (clean_text "a  b\n\nc") = clean_text "a  b\n\nc" :=
  clean_text_idem_no_cr "a  b\n\nc" (by decide)

/-- C9 (counterexample): `clean_text` is not idempotent: on
`"a\r\r\nb"` the first pass yields `"a\r\nb"` (the first `\r` is not
followed by `\n` and survives), and the second pass collapses the now
adjacent `\r\n` into `"a\nb"`. -/
theorem clean_text_not_idem_cex :
    clean_text "a\r\r\nb" = "a\r\nb" ∧
    clean_text (clean_text "a\r\r\nb") = "a\nb" ∧
    clean_text (clean_text "a\r\r\nb") ≠ clean_text "a\r\r\nb" := by
  refine ⟨by decide, by decide, by decide⟩

/-! ## Queue invariants of the interactive loop -/

theorem stepQueue_add (fs : FileSys) (q : List String) (pats : List String) :
    stepQueue fs q (.add pats) = q ++ (addFound fs pats).filter fun p => p ∉ q := by
  rw [stepQueue]
  by_cases hp : pats = []
  · rw [if_pos hp]
    subst hp
    have : addFound fs [] = [] := rfl
    rw [this]
    simp
  · rw [if_neg hp]
    by_cases hf : addFound fs pats = []
    · rw [if_pos hf, hf]
      simp
    · rw [if_neg hf]

theorem addFound_nodup (fs : FileSys) (pats : List String) : (addFound fs pats).Nodup := by
  rw [addFound]
  apply List.Nodup.filter
  unfold discover_paths
  rw [fromkeysList_eq_dedupF]
  exact dedupF_nodup _

theorem stepQueue_nodup (fs : FileSys) (q : List String) (c : Cmd)
    (h : q.Nodup) : (stepQueue fs q c).Nodup := by
  cases c with
  | add pats =>
    rw [stepQueue_add]
    apply List.Nodup.append h
    · exact List.Nodup.filter _ (addFound_nodup fs pats)
    · intro a ha hmem
      have := (List.mem_filter.mp hmem).2
      rw [decide_eq_true_eq] at this
      exact this ha
  | listq => exact h
  | clearq => exact List.nodup_nil
  | runq => exact h
  | unknown => exact h

theorem runSession_go_nodup (fs : FileSys) (cmds : List Cmd) (q : List String)
    (h : q.Nodup) : (cmds.foldl (stepQueue fs) q).Nodup := by
  induction cmds generalizing q with
  | nil => exact h
  | cons c rest ih => exact ih _ (stepQueue_nodup fs q c h)

/-- C6: over any session the queue is an ordered, duplicate-free
sequence: every reachable queue is without duplicates, `add` appends
exactly the newly discovered supported paths that are not yet queued
(in discovery order, after the existing entries), and `clear` empties
the queue. -/
theorem queue_invariant (fs : FileSys) (cmds : List Cmd) (q pats : List String) :
    (runSession fs cmds).Nodup ∧
    stepQueue fs q (.add pats) = (q ++ (addFound fs pats).filter fun p => p ∉ q) ∧
    stepQueue fs q .clearq = [] := by
  refine ⟨?_, stepQueue_add fs q pats, rfl⟩
  exact runSession_go_nodup fs cmds [] List.nodup_nil

theorem queue_supported_go (fs : FileSys) (cmds : List Cmd) (q : List String)
    (hq : ∀ p, p ∈ q → supportedExt p = true) :
    ∀ p, p ∈ cmds.foldl (stepQueue fs) q → supportedExt p = true := by
  induction cmds generalizing q with
  | nil => exact hq
  | cons c rest ih =>
    apply ih
    intro p hp
    cases c with
    | add pats =>
      rw [stepQueue_add] at hp
      rcases List.mem_append.mp hp with h | h
      · exact hq p h
      · have h1 := (List.mem_filter.mp h).1
        exact (List.mem_filter.mp (by rw [addFound] at h1; exact h1)).2
    | listq => exact hq p hp
    | clearq => cases hp
    | runq => exact hq p hp
    | unknown => exact hq p hp

/-- C7: only paths whose lowercased extension is `.pdf`, `.docx` or
`.xlsx` ever enter the queue, over any session. -/
theorem queue_supported_ext (fs : FileSys) (cmds : List Cmd) (p : String)
    (hp : p ∈ runSession fs cmds) : supportedExt p = true :=
  queue_supported_go fs cmds [] (fun _ h => absurd h (List.not_mem_nil _)) p hp

/-- A concrete filesystem whose single glob yields a duplicated
supported file, an unsupported file, and an uppercase-suffix file. -/
def fsMix : FileSys :=
  { glob := fun _ => ["docs/a.pdf", "notes.txt", "docs/a.pdf", "b.XLSX"]
    resolve := fun s => s
    pathExists := fun _ => true
    pathIsFile := fun _ => true }

/-- Witness for C7: after `add *` on `fsMix` the queued path
`"docs/a.pdf"` has a supported extension. -/
theorem queue_supported_ext_witness : supportedExt "docs/a.pdf" = true :=
  queue_supported_ext fsMix [Cmd.add ["*"]] "docs/a.pdf" (by decide)

/-- C10: when some supported files are discovered, the `add` handler
prints `Added N files` with `N = len(found)`, the number of discovered
supported files — not the number appended; the queue grows by the
number of genuinely new paths, which is smaller than `N` whenever some
discovered path is already queued. -/
theorem added_count_total_found (fs : FileSys) (q pats : List String)
    (h : addFound fs pats ≠ []) :
    addResultMessage fs pats =
      some ("Added " ++ toString (addFound fs pats).length ++ " files") ∧
    (stepQueue fs q (.add pats)).length =
      q.length + ((addFound fs pats).filter fun p => p ∉ q).length ∧
    ((∃ p ∈ addFound fs pats, p ∈ q) →
      ((addFound fs pats).filter fun p => p ∉ q).length < (addFound fs pats).length) := by
  refine ⟨?_, ?_, ?_⟩
  · rw [addResultMessage]
    have hpats : pats ≠ [] := by
      intro hp
      subst hp
      exact h rfl
    rw [if_neg hpats, if_neg h]
  · rw [stepQueue_add, List.length_append]
  · rintro ⟨p, hp, hq⟩
    apply List.length_filter_lt_length_iff_exists.mpr
    exact ⟨p, hp, by simpa using hq⟩

/-- Witness for C10 on `fsMix` with `"docs/a.pdf"` already queued: the
message reports 2 files while only 1 is appended. -/
theorem added_count_total_found_witness :
    addResultMessage fsMix ["*"] = some "Added 2 files" ∧
    ((addFound fsMix ["*"]).filter fun p => p ∉ ["docs/a.pdf"]).length <
      (addFound fsMix ["*"]).length :=
  ⟨(added_count_total_found fsMix ["docs/a.pdf"] ["*"] (by decide)).1,
   (added_count_total_found fsMix ["docs/a.pdf"] ["*"] (by decide)).2.2
     ⟨"docs/a.pdf", by decide, by decide⟩⟩

end IEC62304
